import Mathlib

/-!
Verification development for the theta-method finite-volume stepping core of
this repository (the `torax.fvm` cell variable, coefficient bundle, implicit
block solve, residual/loss evaluation, and the boundary updater).  The
implementation modules themselves are not shipped under `src/` (only their
tests are), so each definition below is modelled from the specification and is
marked as such in its doc comment.  All numerics are carried out over `ℚ`
(exact rational arithmetic); the boundary updater for the density channel,
whose formula involves `π`, is modelled over `ℝ`.
-/

namespace ToraxFvm

/-- Boundary condition on one side of a `CellVariable`: either a face value
constraint or a face gradient constraint. -/
inductive FaceBC where
  | value (v : ℚ)
  | grad (g : ℚ)
deriving DecidableEq

/-- Modelled from the spec: the `BoundedField` (`torax.fvm.cell_variable.CellVariable`,
whose module is not under `src/`): an ordered sequence of `n + 1` cell-centered
values, a uniform cell width `dr`, and optional boundary constraints on each
side.  In a valid instance exactly one of the two constraint kinds is set per
side. -/
structure CellVariable (n : ℕ) where
  value : Fin (n + 1) → ℚ
  dr : ℚ
  left_face_constraint : Option ℚ := none
  left_face_grad_constraint : Option ℚ := some 0
  right_face_constraint : Option ℚ := none
  right_face_grad_constraint : Option ℚ := some 0

/-- The effective left boundary condition: the face value constraint when set,
otherwise the face gradient constraint. -/
def CellVariable.leftBC {n : ℕ} (cv : CellVariable n) : FaceBC :=
  match cv.left_face_constraint with
  | some v => .value v
  | none => .grad (cv.left_face_grad_constraint.getD 0)

/-- The effective right boundary condition: the face value constraint when set,
otherwise the face gradient constraint. -/
def CellVariable.rightBC {n : ℕ} (cv : CellVariable n) : FaceBC :=
  match cv.right_face_constraint with
  | some v => .value v
  | none => .grad (cv.right_face_grad_constraint.getD 0)

/-- Modelled from the spec: `face_grad()` returns the `n + 2` face gradients.
Interior faces use the finite difference of the adjacent cells divided by the
cell width; a boundary face uses the gradient constraint directly when set,
and otherwise converts the value constraint to a one-sided gradient with the
half-cell-width correction `(boundary_value - nearest_cell_value) / (0.5 * dr)`
(with the outward sign convention on the left). -/
def CellVariable.face_grad {n : ℕ} (cv : CellVariable n) (f : Fin (n + 2)) : ℚ :=
  if (f : ℕ) = 0 then
    match cv.leftBC with
    | .value v => (cv.value 0 - v) / (cv.dr / 2)
    | .grad g => g
  else if (f : ℕ) = n + 1 then
    match cv.rightBC with
    | .value v => (v - cv.value (Fin.last n)) / (cv.dr / 2)
    | .grad g => g
  else
    (cv.value ⟨min (f : ℕ) n, by omega⟩ - cv.value ⟨(f : ℕ) - 1, by omega⟩) / cv.dr

/-- Modelled from the spec: `face_value()` returns the `n + 2` face values.
Interior faces are the arithmetic mean of the adjacent cells; a boundary face
equals the value constraint when set and is otherwise extrapolated a half cell
outward from the nearest cell using the gradient constraint. -/
def CellVariable.face_value {n : ℕ} (cv : CellVariable n) (f : Fin (n + 2)) : ℚ :=
  if (f : ℕ) = 0 then
    match cv.leftBC with
    | .value v => v
    | .grad g => cv.value 0 - cv.dr / 2 * g
  else if (f : ℕ) = n + 1 then
    match cv.rightBC with
    | .value v => v
    | .grad g => cv.value (Fin.last n) + cv.dr / 2 * g
  else
    (cv.value ⟨min (f : ℕ) n, by omega⟩ + cv.value ⟨(f : ℕ) - 1, by omega⟩) / 2

/-- One side of a `CellVariable` is exactly determined when exactly one of the
two constraint kinds (face value / face gradient) is set. -/
def sideOk (v g : Option ℚ) : Bool := v.isSome != g.isSome

/-- A `CellVariable` is valid when each of its two sides is exactly determined. -/
def CellVariable.constraintsValid {n : ℕ} (cv : CellVariable n) : Bool :=
  sideOk cv.left_face_constraint cv.left_face_grad_constraint &&
  sideOk cv.right_face_constraint cv.right_face_grad_constraint

/-- Error taxonomy of the fvm core, per the spec. -/
inductive FvmError where
  | invalidConstraint
deriving DecidableEq

/-- Modelled from the spec: constructing/replacing a `CellVariable` with new
boundary constraints produces a new instance (the original is untouched, since
all operations are pure), and fails with `InvalidConstraintError` when either
side would end up with zero or with two constraints set simultaneously. -/
def replaceConstraints {n : ℕ} (cv : CellVariable n)
    (lfc lfgc rfc rfgc : Option ℚ) : Except FvmError (CellVariable n) :=
  let cv2 : CellVariable n :=
    { cv with
      left_face_constraint := lfc
      left_face_grad_constraint := lfgc
      right_face_constraint := rfc
      right_face_grad_constraint := rfgc }
  if cv2.constraintsValid then .ok cv2 else .error .invalidConstraint

/-- Modelled from the spec: the per-step transport/source coefficient bundle
(`torax.fvm.Block1DCoeffs`, whose module is not under `src/`) for `c + 1`
coupled channels on a shared mesh of `n + 1` cells: transient coefficients
multiplying the time derivative on each side of the equation, face diffusion
`d_face`, face convection `v_face`, the dense cross-coupling source matrix
`source_mat_cell` (destination channel, source channel) and the per-channel
local source `source_cell`. -/
structure Block1DCoeffs (c n : ℕ) where
  transient_out_cell : Fin (c + 1) → Fin (n + 1) → ℚ := fun _ _ => 1
  transient_in_cell : Fin (c + 1) → Fin (n + 1) → ℚ := fun _ _ => 1
  d_face : Fin (c + 1) → Fin (n + 2) → ℚ := fun _ _ => 0
  v_face : Fin (c + 1) → Fin (n + 2) → ℚ := fun _ _ => 0
  source_mat_cell : Fin (c + 1) → Fin (c + 1) → Fin (n + 1) → ℚ := fun _ _ _ => 0
  source_cell : Fin (c + 1) → Fin (n + 1) → ℚ := fun _ _ => 0

/-- Upwind weight of the cell left of a face in the convection scheme:
the left cell is the upwind side for rightward velocity; central averaging
is used for zero velocity. -/
def upwindWeightL (v : ℚ) : ℚ := if 0 < v then 1 else if v < 0 then 0 else 1 / 2

/-- Upwind weight of the cell right of a face in the convection scheme. -/
def upwindWeightR (v : ℚ) : ℚ := if 0 < v then 0 else if v < 0 then 1 else 1 / 2

/-- Modelled from the spec: coefficient of the cell value left of face `f` in
the finite-volume flux `d * face_grad - v * face_value` through `f` (diffusion
via face gradient, convection by upwinding; at a boundary face the constraint
of the adjacent `CellVariable` determines the gradient and the face value). -/
def fluxCoeffLeftCell (n : ℕ) (dr : ℚ) (d v : Fin (n + 2) → ℚ) (bcR : FaceBC)
    (f : Fin (n + 2)) : ℚ :=
  if (f : ℕ) = 0 then 0
  else if (f : ℕ) = n + 1 then
    match bcR with
    | .value _ => -(2 * d f) / dr
    | .grad _ => -(v f)
  else -(d f) / dr - v f * upwindWeightL (v f)

/-- Modelled from the spec: coefficient of the cell value right of face `f` in
the finite-volume flux through `f`. -/
def fluxCoeffRightCell (n : ℕ) (dr : ℚ) (d v : Fin (n + 2) → ℚ) (bcL : FaceBC)
    (f : Fin (n + 2)) : ℚ :=
  if (f : ℕ) = 0 then
    match bcL with
    | .value _ => 2 * d f / dr
    | .grad _ => -(v f)
  else if (f : ℕ) = n + 1 then 0
  else d f / dr - v f * upwindWeightR (v f)

/-- Modelled from the spec: the constant (cell-value independent) part of the
finite-volume flux through face `f`, produced by the boundary constraints. -/
def fluxConstTerm (n : ℕ) (dr : ℚ) (d v : Fin (n + 2) → ℚ) (bcL bcR : FaceBC)
    (f : Fin (n + 2)) : ℚ :=
  if (f : ℕ) = 0 then
    match bcL with
    | .value vL => -(2 * d f * vL) / dr - v f * vL
    | .grad gL => d f * gL + v f * (dr / 2) * gL
  else if (f : ℕ) = n + 1 then
    match bcR with
    | .value vR => 2 * d f * vR / dr - v f * vR
    | .grad gR => d f * gR - v f * (dr / 2) * gR
  else 0

/-- Linear part of the flux through face `f` as a function of the cell index
`b`: the flux reads the cells directly left and right of `f`. -/
def fluxCellCoeff (n : ℕ) (dr : ℚ) (d v : Fin (n + 2) → ℚ) (bcL bcR : FaceBC)
    (f : Fin (n + 2)) (b : Fin (n + 1)) : ℚ :=
  (if (b : ℕ) + 1 = (f : ℕ) then fluxCoeffLeftCell n dr d v bcR f else 0) +
  (if (b : ℕ) = (f : ℕ) then fluxCoeffRightCell n dr d v bcL f else 0)

/-- Modelled from the spec: entry `(a, b)` of the per-channel spatial operator
matrix — the discretized divergence of the flux, cell `a` balancing the fluxes
through its right face `a.succ` and left face `a.castSucc`. -/
def chanMat (n : ℕ) (dr : ℚ) (d v : Fin (n + 2) → ℚ) (bcL bcR : FaceBC)
    (a b : Fin (n + 1)) : ℚ :=
  (fluxCellCoeff n dr d v bcL bcR a.succ b - fluxCellCoeff n dr d v bcL bcR a.castSucc b) / dr

/-- Modelled from the spec: constant part of the per-channel spatial operator
(boundary-constraint flux contributions). -/
def chanVec (n : ℕ) (dr : ℚ) (d v : Fin (n + 2) → ℚ) (bcL bcR : FaceBC)
    (a : Fin (n + 1)) : ℚ :=
  (fluxConstTerm n dr d v bcL bcR a.succ - fluxConstTerm n dr d v bcL bcR a.castSucc) / dr

/-- Index of the flattened multi-channel state vector: channel then cell, in
the fixed channel ordering shared by states and coefficient bundles. -/
abbrev SysIdx (c n : ℕ) := Fin (c + 1) × Fin (n + 1)

/-- Boundary conditions of each channel of a multi-channel state tuple. -/
def stateBC {c n : ℕ} (x : Fin (c + 1) → CellVariable n) :
    Fin (c + 1) → FaceBC × FaceBC :=
  fun i => ((x i).leftBC, (x i).rightBC)

/-- Cell width of each channel of a multi-channel state tuple. -/
def stateDr {c n : ℕ} (x : Fin (c + 1) → CellVariable n) : Fin (c + 1) → ℚ :=
  fun i => (x i).dr

/-- Flattened cell-value vector of a multi-channel state tuple (concatenation
in channel order). -/
def stateVec {c n : ℕ} (x : Fin (c + 1) → CellVariable n) : SysIdx c n → ℚ :=
  fun p => (x p.1).value p.2

/-- Modelled from the spec: the full block-structured spatial operator matrix.
Diagonal blocks hold each channel's diffusion/convection stencil; every block
`(i, j)` additionally holds the diagonal cross-coupling source matrix entry
describing how channel `j`'s value linearly drives channel `i`'s source. -/
def cMat {c n : ℕ} (coeffs : Block1DCoeffs c n) (bc : Fin (c + 1) → FaceBC × FaceBC)
    (dr : Fin (c + 1) → ℚ) : Matrix (SysIdx c n) (SysIdx c n) ℚ :=
  Matrix.of fun p q =>
    (if p.1 = q.1 then
      chanMat n (dr p.1) (coeffs.d_face p.1) (coeffs.v_face p.1) (bc p.1).1 (bc p.1).2 p.2 q.2
    else 0) +
    (if p.2 = q.2 then coeffs.source_mat_cell p.1 q.1 p.2 else 0)

/-- Modelled from the spec: the constant part of the full spatial operator
(boundary flux contributions plus each channel's local source vector). -/
def cVec {c n : ℕ} (coeffs : Block1DCoeffs c n) (bc : Fin (c + 1) → FaceBC × FaceBC)
    (dr : Fin (c + 1) → ℚ) : SysIdx c n → ℚ :=
  fun p =>
    chanVec n (dr p.1) (coeffs.d_face p.1) (coeffs.v_face p.1) (bc p.1).1 (bc p.1).2 p.2 +
    coeffs.source_cell p.1 p.2

/-- The four blocks of the assembled theta-method linear system
`lhs_mat * x_new + lhs_vec = rhs_mat * x_old + rhs_vec`. -/
structure ThetaSystem (c n : ℕ) where
  lhs_mat : Matrix (SysIdx c n) (SysIdx c n) ℚ
  lhs_vec : SysIdx c n → ℚ
  rhs_mat : Matrix (SysIdx c n) (SysIdx c n) ℚ
  rhs_vec : SysIdx c n → ℚ

/-- Modelled from the spec: assemble the blended implicit/explicit linear
system of the theta method.  The new-level spatial operator (weight `theta`,
moved to the left-hand side in the unknown `x_new`) uses `coeffs_new` and the
boundary constraints read from `x_new_guess`; the old-level operator (weight
`1 - theta`) uses `coeffs_old` and the boundary constraints of `x_old`; the
transient term contributes `transient_out * transient_in / dt` on the
diagonal of both sides. -/
def theta_method_matrix_equation {c n : ℕ}
    (x_old x_new_guess : Fin (c + 1) → CellVariable n)
    (coeffs_old coeffs_new : Block1DCoeffs c n) (dt theta : ℚ) : ThetaSystem c n :=
  let cN := cMat coeffs_new (stateBC x_new_guess) (stateDr x_new_guess)
  let cvN := cVec coeffs_new (stateBC x_new_guess) (stateDr x_new_guess)
  let cO := cMat coeffs_old (stateBC x_old) (stateDr x_old)
  let cvO := cVec coeffs_old (stateBC x_old) (stateDr x_old)
  { lhs_mat := Matrix.of fun p q =>
      (if p = q then
        coeffs_new.transient_out_cell p.1 p.2 * coeffs_new.transient_in_cell p.1 p.2 / dt
      else 0) - theta * cN p q
    lhs_vec := fun p => -(theta * cvN p)
    rhs_mat := Matrix.of fun p q =>
      (if p = q then
        coeffs_new.transient_out_cell p.1 p.2 * coeffs_old.transient_in_cell p.1 p.2 / dt
      else 0) + (1 - theta) * cO p q
    rhs_vec := fun p => (1 - theta) * cvO p }

/-- Inverse of a square rational matrix via the adjugate (agrees with
Mathlib's noncomputable `Matrix.inv`, see `matInv_eq_inv`). -/
def matInv {m : Type} [Fintype m] [DecidableEq m] (A : Matrix m m ℚ) : Matrix m m ℚ :=
  (A.det)⁻¹ • A.adjugate

/-- Modelled from the spec: the flattened new-state vector produced by the
theta-step solver — the solution of the assembled linear system. -/
def implicit_solve_block_vec {c n : ℕ}
    (x_old x_new_guess : Fin (c + 1) → CellVariable n)
    (coeffs_old coeffs_new : Block1DCoeffs c n) (dt theta_imp : ℚ) : SysIdx c n → ℚ :=
  let sys := theta_method_matrix_equation x_old x_new_guess coeffs_old coeffs_new dt theta_imp
  (matInv sys.lhs_mat).mulVec
    (sys.rhs_mat.mulVec (stateVec x_old) + sys.rhs_vec - sys.lhs_vec)

/-- Modelled from the spec: `torax.fvm.implicit_solve_block.implicit_solve_block`
(whose module is not under `src/`): advance all coupled channels one theta-method
step.  Only cell values change; each returned channel keeps the boundary
constraint metadata of `x_new_guess` (boundary conditions are read from the
guess, not recomputed). -/
def implicit_solve_block {c n : ℕ}
    (x_old x_new_guess : Fin (c + 1) → CellVariable n)
    (coeffs_old coeffs_new : Block1DCoeffs c n) (dt theta_imp : ℚ) :
    Fin (c + 1) → CellVariable n :=
  let xvec := implicit_solve_block_vec x_old x_new_guess coeffs_old coeffs_new dt theta_imp
  fun i => { x_new_guess i with value := fun a => xvec (i, a) }

/-- Modelled from the spec: `torax.fvm.residual_and_loss.theta_method_block_residual`
(whose module is not under `src/`): the defect of a flattened candidate
new-state vector against the same theta-method linear system the solver
assembles; boundary values at `t + dt` are read from `x_new_bc`. -/
def theta_method_block_residual {c n : ℕ} (x_new_guess_vec : SysIdx c n → ℚ)
    (x_old x_new_bc : Fin (c + 1) → CellVariable n)
    (coeffs_old coeffs_new : Block1DCoeffs c n) (dt theta : ℚ) : SysIdx c n → ℚ :=
  let sys := theta_method_matrix_equation x_old x_new_bc coeffs_old coeffs_new dt theta
  sys.lhs_mat.mulVec x_new_guess_vec + sys.lhs_vec -
    (sys.rhs_mat.mulVec (stateVec x_old) + sys.rhs_vec)

/-- Modelled from the spec: `torax.fvm.residual_and_loss.theta_method_block_loss`:
half the sum of squares of the residual. -/
def theta_method_block_loss {c n : ℕ} (x_new_guess_vec : SysIdx c n → ℚ)
    (x_old x_new_bc : Fin (c + 1) → CellVariable n)
    (coeffs_old coeffs_new : Block1DCoeffs c n) (dt theta : ℚ) : ℚ :=
  1 / 2 * ∑ p : SysIdx c n,
    (theta_method_block_residual x_new_guess_vec x_old x_new_bc coeffs_old coeffs_new dt theta p) ^ 2

/-- Modelled from the spec: derive the poloidal-flux edge value constraint at
`t + dt` from the edge loop voltage at `t` and the target edge loop voltage at
`t + dt` by theta-blended integration over `dt`
(`torax.core_profiles.updaters._calculate_psi_value_constraint_from_vloop`,
whose module is not under `src/`). -/
def calculate_psi_value_constraint_from_vloop
    (dt theta vloop_lcfs_t vloop_lcfs_t_plus_dt psi_lcfs_t : ℚ) : ℚ :=
  psi_lcfs_t + dt * (theta * vloop_lcfs_t_plus_dt + (1 - theta) * vloop_lcfs_t)

/-- Modelled from the spec: recover the implied edge loop voltage from the flux
field edge (right face) values at `t` and `t + dt`
(`torax.core_profiles.updaters._update_vloop_lcfs_from_psi`, whose module is
not under `src/`). -/
def update_vloop_lcfs_from_psi {n : ℕ}
    (psi_t psi_t_plus_dt : CellVariable n) (dt : ℚ) : ℚ :=
  (psi_t_plus_dt.face_value (Fin.last (n + 1)) -
    psi_t.face_value (Fin.last (n + 1))) / dt

/-- Two-cell single-channel diffusive test state: flat zero values, unit cell
width, zero right face value constraint, zero left face gradient constraint. -/
def diffCV0 : CellVariable 1 :=
  { value := fun _ => 0, dr := 1, right_face_constraint := some 0,
    right_face_grad_constraint := none }

/-- The diffusive test state with the right boundary constraint updated to 1. -/
def diffCV1 : CellVariable 1 :=
  { diffCV0 with right_face_constraint := some 1 }

/-- Single-channel coefficient bundle for the diffusive test system: unit
diffusion, no convection, no sources, unit transient coefficients. -/
def diffCoeffs : Block1DCoeffs 0 1 := { d_face := fun _ _ => 1 }

/-- Explicit inverse of the `theta = 1`, `dt = 1` left-hand-side matrix of the
diffusive test system (used to discharge invertibility side conditions). -/
def diffLhsInv : Matrix (SysIdx 0 1) (SysIdx 0 1) ℚ :=
  Matrix.of fun p q =>
    if p.2 = 0 then (if q.2 = 0 then 4 / 7 else 1 / 7)
    else (if q.2 = 0 then 1 / 7 else 2 / 7)

/-- A boundary condition is zero-valued: a face value constraint `0` or a face
gradient constraint `0` (the constraints compatible with a flat zero state). -/
def ZeroBC : FaceBC → Prop
  | .value v => v = 0
  | .grad g => g = 0

/-- The diffusive test state with right boundary value constraint `5`
(identical at `t` and `t + dt`, but incompatible with a flat zero state). -/
def diffCV5 : CellVariable 1 :=
  { diffCV0 with right_face_constraint := some 5 }

/-- Single-channel state tuple with the nonzero static boundary. -/
def diffState5 : Fin 1 → CellVariable 1 := fun _ => diffCV5

/-- Exactly one of the two optional constraints of one boundary side is set. -/
def ExactlyOne (a b : Option ℚ) : Prop := (a.isSome ∧ ¬ b.isSome) ∨ (¬ a.isSome ∧ b.isSome)

/-- Flux field at `t` for the flux/voltage round-trip check: uniform `0.5`
on four cells, `dr = 1/4`, zero right face gradient constraint. -/
def psiT0 : CellVariable 3 :=
  { value := fun _ => 0.5, dr := 1 / 4, right_face_constraint := none,
    right_face_grad_constraint := some 0 }

/-- Flux field at `t + dt` for the round-trip check: uniform at the edge value
derived by the forward conversion from `vloop(t) = 0.1`, target
`vloop(t+dt) = 0.2`, `psi_edge(t) = 0.5`, `dt = 1`, `theta = 1`. -/
def psiT1 : CellVariable 3 :=
  { value := fun _ => calculate_psi_value_constraint_from_vloop 1 1 0.1 0.2 0.5,
    dr := 1 / 4, right_face_constraint := none,
    right_face_grad_constraint := some 0 }

/-- Concrete three-cell variable with a right face value constraint, random-ish
interior and a distinct last cell, used as the C6 witness input. -/
def cvRightValueW : CellVariable 2 :=
  { value := fun i => if i = 2 then 1 else 0, dr := 1 / 4,
    right_face_constraint := some 2, right_face_grad_constraint := none }

/-- Flat-zero two-cell state with zero right face value constraint and zero
left face gradient constraint, used by the cross-coupling test. -/
def crossCV0 : CellVariable 1 :=
  { value := fun _ => 0, dr := 1, right_face_constraint := some 0,
    right_face_grad_constraint := none }

/-- Two-channel flat-zero state tuple of the cross-coupling test. -/
def crossState : Fin 2 → CellVariable 1 := fun _ => crossCV0

/-- Two-channel coefficient bundle of the implicit-source-cross test: zero
diffusion and convection, unit transients; channel `start` has a unit constant
source and drives the other channel through the cross-coupling matrix. -/
def crossCoeffs (start : Fin 2) : Block1DCoeffs 1 1 :=
  { source_mat_cell := fun i j _ => if i ≠ start ∧ j = start then 1 else 0
    source_cell := fun i _ => if i = start then 1 else 0 }

/-- The nilpotent cross-coupling block of the assembled system: channel
`start` drives the other channel cell-by-cell. -/
def crossS (start : Fin 2) : Matrix (SysIdx 1 1) (SysIdx 1 1) ℚ :=
  Matrix.of fun p q => if p.2 = q.2 ∧ p.1 ≠ start ∧ q.1 = start then 1 else 0

/-- Single-channel flat-zero diffusive state tuple (right boundary 0). -/
def diffState0 : Fin 1 → CellVariable 1 := fun _ => diffCV0

/-- Single-channel diffusive guess tuple with the right boundary updated to 1. -/
def diffState1 : Fin 1 → CellVariable 1 := fun _ => diffCV1

/-- Explicit inverse of the diffusive-system left-hand side at symbolic
`theta` (denominator is the determinant `2 theta^2 + 4 theta + 1`). -/
def diffLhsInvTheta (θ : ℚ) : Matrix (SysIdx 0 1) (SysIdx 0 1) ℚ :=
  Matrix.of fun p q =>
    if p.2 = 0 then
      (if q.2 = 0 then (1 + 3 * θ) / (2 * θ ^ 2 + 4 * θ + 1)
       else θ / (2 * θ ^ 2 + 4 * θ + 1))
    else
      (if q.2 = 0 then θ / (2 * θ ^ 2 + 4 * θ + 1)
       else (1 + θ) / (2 * θ ^ 2 + 4 * θ + 1))

/-- Modelled from the spec: the Greenwald density
`Ip_tot / (π · Rmin²) · 1e20 / nref` (in the core's reference units), used to
convert Greenwald-fraction (`fGW`) density specifications to absolute
densities.  Defined over `ℝ` because the formula involves `π`. -/
noncomputable def nGW (Ip_tot Rmin nref : ℝ) : ℝ :=
  Ip_tot / (Real.pi * Rmin ^ 2) * 1e20 / nref

/-- Trapezoidal line average of a face-grid profile over the unit normalized
radius interval (uniform face spacing `1 / (m + 1)`). -/
noncomputable def lineAvgFace (m : ℕ) (f : Fin (m + 2) → ℝ) : ℝ :=
  (∑ i : Fin (m + 1), (f i.castSucc + f i.succ) / 2) / (m + 1)

/-- Modelled from the spec: the density-channel right boundary constraint of
`compute_boundary_conditions_for_t_plus_dt`
(`torax.core_profiles.updaters`, whose module is not under `src/`).  An
absolute edge density `ne_bound_right` always takes precedence: it is used
directly, converted by the Greenwald density exactly when
`ne_bound_right_is_fGW` is set.  Otherwise the constraint is derived from the
edge value of the `ne` face profile, normalized to the line-averaged density
target `nbar` when `normalize_to_nbar` is set (normalization acts on the
dimensionless profile), and converted by the Greenwald density exactly when
`ne_is_fGW` is set. -/
noncomputable def compute_ne_bound_right (m : ℕ) (neFace : Fin (m + 2) → ℝ)
    (nbar : ℝ) (normalize_to_nbar ne_is_fGW ne_bound_right_is_fGW : Bool)
    (ne_bound_right : Option ℝ) (Ip_tot Rmin nref : ℝ) : ℝ :=
  match ne_bound_right with
  | some nbr => if ne_bound_right_is_fGW then nbr * nGW Ip_tot Rmin nref else nbr
  | none =>
    let c : ℝ := if normalize_to_nbar then nbar / lineAvgFace m neFace else 1
    let v : ℝ := c * neFace (Fin.last (m + 1))
    if ne_is_fGW then v * nGW Ip_tot Rmin nref else v

/-- Face profile of the density test case: the linear profile `1.5 → 1` on a
four-cell mesh, with the left face taking the nearest-cell value (the face
representation of the bounded cell profile). -/
noncomputable def neProfileW : Fin 5 → ℝ :=
  fun i => if i = 0 then 1.4375 else 1.5 - (i : ℝ) / 8

/-- Right-boundary face value constraints of the two leftward-convection
channels. -/
def bval : Fin 2 → ℚ := fun i => if i = 0 then 1 else -2

/-- Leftward-convection coefficient bundle: uniform velocity `-1` on every
face, zero diffusion, zero sources, unit transients. -/
def convCoeffs (n : ℕ) : Block1DCoeffs 1 n := { v_face := fun _ _ => -1 }

/-- Two-channel leftward-convection state with cell values `w`, unit cell
width, zero left face gradient constraint and right face value constraint
`bval i` per channel. -/
def convState (n : ℕ) (w : SysIdx 1 n → ℚ) : Fin 2 → CellVariable n :=
  fun i =>
    { value := fun a => w (i, a), dr := 1,
      left_face_constraint := none, left_face_grad_constraint := some 0,
      right_face_constraint := some (bval i), right_face_grad_constraint := none }

/-- One fixed-point step of the leftward-convection test loop: the solver is
re-invoked with the current state as both old state and guess. -/
def stepConv (n : ℕ) (dt θ : ℚ) (x : Fin 2 → CellVariable n) : Fin 2 → CellVariable n :=
  implicit_solve_block x x (convCoeffs n) (convCoeffs n) dt θ

/-- Action of the explicit (`theta = 0`, `dt = 1/2`) two-cell convection step
on the flattened state vector. -/
def gA (w : SysIdx 1 1 → ℚ) : SysIdx 1 1 → ℚ :=
  fun p => if p.2 = 0 then (w (p.1, 0) + w (p.1, 1)) / 2
    else (w (p.1, 1) + bval p.1) / 2

/-- Closed form of `k` explicit two-cell convection steps from zero. -/
def phiA (k : ℕ) : SysIdx 1 1 → ℚ :=
  fun p => bval p.1 *
    (if p.2 = 0 then 1 - (1 + (k : ℚ)) / 2 ^ k else 1 - 1 / 2 ^ k)

/-- Action of the Crank-Nicolson (`theta = 1/2`, `dt = 1`) three-cell
convection step on the flattened state vector (back substitution of the
upper-bidiagonal implicit system). -/
def gB (w : SysIdx 1 2 → ℚ) : SysIdx 1 2 → ℚ := fun p =>
  let i := p.1
  let r0 := (w (i, 0) + w (i, 1)) / 2
  let r1 := (w (i, 1) + w (i, 2)) / 2
  let r2 := w (i, 2) / 2 + bval i
  let v2 := 2 / 3 * r2
  let v1 := 2 / 3 * r1 + v2 / 3
  let v0 := 2 / 3 * r0 + v1 / 3
  if p.2 = 0 then v0 else if p.2 = 1 then v1 else v2

/-- Closed form of `k` Crank-Nicolson three-cell convection steps from zero. -/
def phiB (k : ℕ) : SysIdx 1 2 → ℚ := fun p =>
  bval p.1 *
    (if p.2 = 0 then
      1 - (1 + 4 * (k : ℚ) / 3 + 4 * (k : ℚ) * (2 * (k : ℚ) - 1) / 9) / 3 ^ k
     else if p.2 = 1 then 1 - (1 + 4 * (k : ℚ) / 3) / 3 ^ k
     else 1 - 1 / 3 ^ k)

/-- The assembled left-hand side of the Crank-Nicolson three-cell convection
system (block upper bidiagonal). -/
def lhsB : Matrix (SysIdx 1 2) (SysIdx 1 2) ℚ :=
  Matrix.of fun p q =>
    if p.1 = q.1 then
      (if (q.2 : ℕ) = (p.2 : ℕ) then 3 / 2
       else if (q.2 : ℕ) = (p.2 : ℕ) + 1 then -(1 / 2) else 0)
    else 0

/-- Explicit inverse of `lhsB`. -/
def lhsInvB : Matrix (SysIdx 1 2) (SysIdx 1 2) ℚ :=
  Matrix.of fun p q =>
    if p.1 = q.1 then
      (if (q.2 : ℕ) = (p.2 : ℕ) then 2 / 3
       else if (q.2 : ℕ) = (p.2 : ℕ) + 1 then 2 / 9
       else if (q.2 : ℕ) = (p.2 : ℕ) + 2 then 2 / 27 else 0)
    else 0

/-- Action of the fully implicit (`theta = 1`, `dt = 1`) four-cell convection
step on the flattened state vector. -/
def gC (w : SysIdx 1 3 → ℚ) : SysIdx 1 3 → ℚ := fun p =>
  let i := p.1
  let v3 := (w (i, 3) + bval i) / 2
  let v2 := (w (i, 2) + v3) / 2
  let v1 := (w (i, 1) + v2) / 2
  let v0 := (w (i, 0) + v1) / 2
  if p.2 = 0 then v0 else if p.2 = 1 then v1 else if p.2 = 2 then v2 else v3

/-- Closed form of `k` fully implicit four-cell convection steps from zero. -/
def phiC (k : ℕ) : SysIdx 1 3 → ℚ := fun p =>
  bval p.1 *
    (if p.2 = 0 then
      1 - (1 + (k : ℚ) / 2 + (k : ℚ) * ((k : ℚ) + 1) / 8 +
        (k : ℚ) * ((k : ℚ) + 1) * ((k : ℚ) + 2) / 48) / 2 ^ k
     else if p.2 = 1 then
      1 - (1 + (k : ℚ) / 2 + (k : ℚ) * ((k : ℚ) + 1) / 8) / 2 ^ k
     else if p.2 = 2 then 1 - (1 + (k : ℚ) / 2) / 2 ^ k
     else 1 - 1 / 2 ^ k)

/-- The assembled left-hand side of the fully implicit four-cell convection
system. -/
def lhsC : Matrix (SysIdx 1 3) (SysIdx 1 3) ℚ :=
  Matrix.of fun p q =>
    if p.1 = q.1 then
      (if (q.2 : ℕ) = (p.2 : ℕ) then 2
       else if (q.2 : ℕ) = (p.2 : ℕ) + 1 then -1 else 0)
    else 0

/-- Explicit inverse of `lhsC`. -/
def lhsInvC : Matrix (SysIdx 1 3) (SysIdx 1 3) ℚ :=
  Matrix.of fun p q =>
    if p.1 = q.1 then
      (if (q.2 : ℕ) = (p.2 : ℕ) then 1 / 2
       else if (q.2 : ℕ) = (p.2 : ℕ) + 1 then 1 / 4
       else if (q.2 : ℕ) = (p.2 : ℕ) + 2 then 1 / 8
       else if (q.2 : ℕ) = (p.2 : ℕ) + 3 then 1 / 16 else 0)
    else 0

/-! ## Theorems -/

/-- `sideOk` decides `ExactlyOne`. -/
theorem sideOk_iff (a b : Option ℚ) : sideOk a b = true ↔ ExactlyOne a b := by
  cases a <;> cases b <;> simp [sideOk, ExactlyOne]

/-- `matInv` agrees with Mathlib's noncomputable matrix inverse. -/
theorem matInv_eq_inv {m : Type} [Fintype m] [DecidableEq m] (A : Matrix m m ℚ) :
    matInv A = A⁻¹ := by
  rw [Matrix.inv_def, Ring.inverse_eq_inv, matInv]

/-- Multiplying by `A` undoes multiplying by `matInv A` when `A` is nonsingular. -/
theorem mulVec_matInv_cancel {m : Type} [Fintype m] [DecidableEq m]
    (A : Matrix m m ℚ) (h : IsUnit A.det) (b : m → ℚ) :
    A.mulVec ((matInv A).mulVec b) = b := by
  rw [matInv_eq_inv, Matrix.mulVec_mulVec, Matrix.mul_nonsing_inv A h, Matrix.one_mulVec]

/-- C1: for a time-invariant coefficient bundle (the same bundle at `t` and
`t + dt`) and any `theta` — in particular `theta ∈ {0, 0.5, 1}` — the state
vector produced by `implicit_solve_block` from any old state (hence by each
step of repeated fixed-point stepping) is an exact zero of the residual
formulation with coefficients held fixed: `theta_method_block_residual`
evaluated at the solver's own solution is `0` and `theta_method_block_loss`
is `0` (exactly, hence within absolute tolerance `1e-7`), because the solver's
linear system and the residual are the same system expressed as `Ax = b`
versus `Ax - b`, and the loss is half the sum of squared residuals. -/
theorem c1_solver_solution_zero_residual_loss {c n : ℕ}
    (x_old x_new_guess : Fin (c + 1) → CellVariable n)
    (coeffs : Block1DCoeffs c n) (dt theta : ℚ)
    (hdet : IsUnit (theta_method_matrix_equation x_old x_new_guess
      coeffs coeffs dt theta).lhs_mat.det) :
    theta_method_block_residual
      (implicit_solve_block_vec x_old x_new_guess coeffs coeffs dt theta)
      x_old x_new_guess coeffs coeffs dt theta = 0 ∧
    theta_method_block_loss
      (implicit_solve_block_vec x_old x_new_guess coeffs coeffs dt theta)
      x_old x_new_guess coeffs coeffs dt theta = 0 := by
  have hres : theta_method_block_residual
      (implicit_solve_block_vec x_old x_new_guess coeffs coeffs dt theta)
      x_old x_new_guess coeffs coeffs dt theta = 0 := by
    simp only [theta_method_block_residual, implicit_solve_block_vec]
    rw [mulVec_matInv_cancel _ hdet]
    abel
  refine ⟨hres, ?_⟩
  simp only [theta_method_block_loss, hres, Pi.zero_apply]
  simp

/-- Witness for C1 at a concrete diffusive two-cell system with `theta = 1`,
`dt = 1`: the assembled left-hand side is nonsingular and the solver's solution
gives exactly zero residual and loss. -/
theorem c1_solver_solution_zero_residual_loss_witness :
    IsUnit (theta_method_matrix_equation (fun _ => diffCV0) (fun _ => diffCV0)
      diffCoeffs diffCoeffs 1 1).lhs_mat.det ∧
    theta_method_block_residual
      (implicit_solve_block_vec (fun _ => diffCV0) (fun _ => diffCV0)
        diffCoeffs diffCoeffs 1 1)
      (fun _ => diffCV0) (fun _ => diffCV0) diffCoeffs diffCoeffs 1 1 = 0 ∧
    theta_method_block_loss
      (implicit_solve_block_vec (fun _ => diffCV0) (fun _ => diffCV0)
        diffCoeffs diffCoeffs 1 1)
      (fun _ => diffCV0) (fun _ => diffCV0) diffCoeffs diffCoeffs 1 1 = 0 := by
  have hAB : (theta_method_matrix_equation (fun _ => diffCV0) (fun _ => diffCV0)
      diffCoeffs diffCoeffs 1 1).lhs_mat * diffLhsInv = 1 := by
    ext ⟨i, a⟩ ⟨j, b⟩
    fin_cases i
    fin_cases j
    fin_cases a <;> fin_cases b <;>
      norm_num +decide [Matrix.mul_apply, Fintype.sum_prod_type, Fin.sum_univ_succ,
        Matrix.of_apply, Matrix.one_apply, theta_method_matrix_equation, cMat, cVec,
        chanMat, chanVec, fluxCellCoeff, fluxCoeffLeftCell, fluxCoeffRightCell,
        fluxConstTerm, upwindWeightL, upwindWeightR, stateBC, stateDr, diffCV0,
        diffCoeffs, diffLhsInv, CellVariable.leftBC, CellVariable.rightBC]
  have hdet := Matrix.isUnit_det_of_right_inverse hAB
  exact ⟨hdet, (c1_solver_solution_zero_residual_loss _ _ _ _ _ hdet).1,
    (c1_solver_solution_zero_residual_loss _ _ _ _ _ hdet).2⟩

/-- The cross-coupling block is nilpotent: the driving pattern composed with
itself vanishes. -/
theorem crossS_sq (start : Fin 2) : crossS start * crossS start = 0 := by
  fin_cases start <;>
  · ext ⟨i, a⟩ ⟨j, b⟩
    fin_cases i <;> fin_cases j <;> fin_cases a <;> fin_cases b <;>
      norm_num +decide [Matrix.mul_apply, Fintype.sum_prod_type, Fin.sum_univ_succ,
        crossS, Matrix.of_apply, Matrix.zero_apply]

set_option maxHeartbeats 2000000 in
/-- The assembled left-hand side of the cross-coupling system is
`1 - theta • crossS start`. -/
theorem cross_lhs (start : Fin 2) (θ : ℚ) :
    (theta_method_matrix_equation crossState crossState (crossCoeffs start)
      (crossCoeffs start) 1 θ).lhs_mat = 1 - θ • crossS start := by
  fin_cases start <;>
  · ext ⟨i, a⟩ ⟨j, b⟩
    fin_cases i <;> fin_cases j <;> fin_cases a <;> fin_cases b <;>
      norm_num +decide [theta_method_matrix_equation, cMat, chanMat, fluxCellCoeff,
        fluxCoeffLeftCell, fluxCoeffRightCell, upwindWeightL, upwindWeightR,
        stateBC, stateDr, crossState, crossCV0, crossCoeffs, crossS,
        CellVariable.leftBC, CellVariable.rightBC, Matrix.of_apply,
        Matrix.sub_apply, Matrix.smul_apply, Matrix.one_apply, smul_eq_mul]

/-- Closed form of the inverse of the cross-coupling left-hand side. -/
theorem cross_inv (start : Fin 2) (θ : ℚ) :
    matInv (theta_method_matrix_equation crossState crossState (crossCoeffs start)
      (crossCoeffs start) 1 θ).lhs_mat = 1 + θ • crossS start := by
  have h2 := crossS_sq start
  have hprod : (1 - θ • crossS start) * (1 + θ • crossS start) = 1 := by
    have expand : (1 - θ • crossS start) * (1 + θ • crossS start) =
        1 - θ • crossS start * (θ • crossS start) := by
      rw [sub_mul, one_mul, mul_add, mul_one]
      abel
    rw [expand, Matrix.smul_mul, Matrix.mul_smul, smul_smul, h2, smul_zero, sub_zero]
  rw [cross_lhs, matInv_eq_inv, Matrix.inv_eq_right_inv hprod]

set_option maxHeartbeats 2000000 in
/-- Closed form of one cross-coupling solver step from the flat zero state:
the driving channel reaches `1`, the driven channel reaches `theta`. -/
theorem cross_vec_eval (start : Fin 2) (θ : ℚ) :
    implicit_solve_block_vec crossState crossState (crossCoeffs start)
      (crossCoeffs start) 1 θ = fun p => if p.1 = start then 1 else θ := by
  simp only [implicit_solve_block_vec]
  rw [cross_inv]
  funext p
  rcases p with ⟨i, a⟩
  fin_cases start <;> fin_cases i <;> fin_cases a <;>
    norm_num +decide [Matrix.mulVec, Matrix.dotProduct, Fintype.sum_prod_type,
      Fin.sum_univ_succ, theta_method_matrix_equation, cMat, cVec, chanMat, chanVec,
      fluxCellCoeff, fluxCoeffLeftCell, fluxCoeffRightCell, fluxConstTerm,
      upwindWeightL, upwindWeightR, stateBC, stateDr, stateVec, crossState, crossCV0,
      crossCoeffs, crossS, CellVariable.leftBC, CellVariable.rightBC,
      Matrix.of_apply, Matrix.add_apply, Matrix.smul_apply, Matrix.one_apply,
      smul_eq_mul, Pi.add_apply, Pi.sub_apply, Prod.mk.injEq]

/-- C2: in the two-channel system with zero diffusion and convection,
flat zero initial state, a unit constant source in channel `start` and a
cross-coupling matrix making channel `start` drive the other channel's source,
one step of `implicit_solve_block` (`dt = 1`) leaves the driven channel at
exactly `0` in every cell when `theta = 0`, while for `theta > 0` the driven
channel's minimum cell value is strictly positive; this holds for both
assignments of the driving direction (both off-diagonal blocks). -/
theorem c2_implicit_source_cross (start : Fin 2) (θ : ℚ) :
    (θ = 0 → ∀ a, ((implicit_solve_block crossState crossState (crossCoeffs start)
      (crossCoeffs start) 1 θ) (1 - start)).value a = 0) ∧
    (0 < θ → ∀ a, 0 < ((implicit_solve_block crossState crossState (crossCoeffs start)
      (crossCoeffs start) 1 θ) (1 - start)).value a) := by
  have key : ∀ a : Fin 2, ((implicit_solve_block crossState crossState (crossCoeffs start)
      (crossCoeffs start) 1 θ) (1 - start)).value a = θ := by
    intro a
    simp only [implicit_solve_block]
    rw [cross_vec_eval]
    fin_cases start <;> norm_num +decide
  exact ⟨fun h a => by rw [key a, h], fun h a => by rw [key a]; exact h⟩

/-- Witness for C2: with channel 0 driving channel 1 and `theta = 1/2`, the
driven channel's first cell is strictly positive after one step. -/
theorem c2_implicit_source_cross_witness :
    (0 : ℚ) < 1 / 2 ∧
    0 < ((implicit_solve_block crossState crossState (crossCoeffs 0)
      (crossCoeffs 0) 1 (1 / 2)) (1 - 0)).value 0 :=
  ⟨by norm_num, (c2_implicit_source_cross 0 (1 / 2)).2 (by norm_num) 0⟩

set_option maxHeartbeats 2000000 in
/-- Closed form of the inverse of the diffusive-system left-hand side at
symbolic `theta` (valid whenever the determinant is nonzero). -/
theorem diff_lhs_inv (θ : ℚ) (hdet : 2 * θ ^ 2 + 4 * θ + 1 ≠ 0) :
    matInv (theta_method_matrix_equation diffState0 diffState1 diffCoeffs
      diffCoeffs 1 θ).lhs_mat = diffLhsInvTheta θ := by
  have hAB : (theta_method_matrix_equation diffState0 diffState1 diffCoeffs
      diffCoeffs 1 θ).lhs_mat * diffLhsInvTheta θ = 1 := by
    ext ⟨i, a⟩ ⟨j, b⟩
    fin_cases i
    fin_cases j
    fin_cases a <;> fin_cases b <;>
    · norm_num +decide [Matrix.mul_apply, Fintype.sum_prod_type, Fin.sum_univ_succ,
        theta_method_matrix_equation, cMat, chanMat, fluxCellCoeff,
        fluxCoeffLeftCell, fluxCoeffRightCell, upwindWeightL, upwindWeightR,
        stateBC, stateDr, diffState0, diffState1, diffCV0, diffCV1, diffCoeffs,
        diffLhsInvTheta, CellVariable.leftBC, CellVariable.rightBC,
        Matrix.of_apply, Matrix.one_apply, Prod.mk.injEq]
      field_simp
      ring
  rw [matInv_eq_inv, Matrix.inv_eq_right_inv hAB]

set_option maxHeartbeats 2000000 in
/-- Closed form of one diffusive solver step from the flat zero old state with
the right boundary constraint of the guess updated to 1. -/
theorem diff_vec_eval (θ : ℚ) (hdet : 2 * θ ^ 2 + 4 * θ + 1 ≠ 0) :
    implicit_solve_block_vec diffState0 diffState1 diffCoeffs diffCoeffs 1 θ =
      fun p => if p.2 = 0 then 2 * θ ^ 2 / (2 * θ ^ 2 + 4 * θ + 1)
        else 2 * θ * (1 + θ) / (2 * θ ^ 2 + 4 * θ + 1) := by
  simp only [implicit_solve_block_vec]
  rw [diff_lhs_inv θ hdet]
  funext p
  rcases p with ⟨i, a⟩
  fin_cases i
  fin_cases a <;>
  · norm_num +decide [Matrix.mulVec, Matrix.dotProduct, Fintype.sum_prod_type,
      Fin.sum_univ_succ, theta_method_matrix_equation, cMat, cVec, chanMat, chanVec,
      fluxCellCoeff, fluxCoeffLeftCell, fluxCoeffRightCell, fluxConstTerm,
      upwindWeightL, upwindWeightR, stateBC, stateDr, stateVec, diffState0,
      diffState1, diffCV0, diffCV1, diffCoeffs, diffLhsInvTheta,
      CellVariable.leftBC, CellVariable.rightBC, Matrix.of_apply,
      Matrix.one_apply, Prod.mk.injEq, Pi.add_apply, Pi.sub_apply]
    field_simp
    ring

/-- C3: changing only the right-boundary face value constraint in the
`t + dt` guess (diffusive two-cell system with zero sources, flat zero old
state with right boundary 0, guess right boundary 1, all other inputs fixed):
with `theta = 0` the returned cell values remain exactly 0 — the explicit
update does not see the `t + dt` boundary — but the returned field's
`right_face_constraint` equals the updated constraint value 1 from the guess;
with `theta > 0` the returned cell values are strictly positive. -/
theorem c3_updated_boundary_conditions (θ : ℚ) (hθ : 0 ≤ θ) :
    (θ = 0 → ∀ a, ((implicit_solve_block diffState0 diffState1 diffCoeffs
      diffCoeffs 1 θ) 0).value a = 0) ∧
    ((implicit_solve_block diffState0 diffState1 diffCoeffs diffCoeffs 1 θ)
      0).right_face_constraint = some 1 ∧
    (0 < θ → ∀ a, 0 < ((implicit_solve_block diffState0 diffState1 diffCoeffs
      diffCoeffs 1 θ) 0).value a) := by
  have hpos : 0 < 2 * θ ^ 2 + 4 * θ + 1 := by positivity
  have key : ∀ a : Fin 2, ((implicit_solve_block diffState0 diffState1 diffCoeffs
      diffCoeffs 1 θ) 0).value a =
      (if a = 0 then 2 * θ ^ 2 / (2 * θ ^ 2 + 4 * θ + 1)
       else 2 * θ * (1 + θ) / (2 * θ ^ 2 + 4 * θ + 1)) := by
    intro a
    simp only [implicit_solve_block]
    rw [diff_vec_eval θ (ne_of_gt hpos)]
  refine ⟨fun h a => ?_, ?_, fun h a => ?_⟩
  · rw [key a, h]
    norm_num
  · simp [implicit_solve_block, diffState1, diffCV1, diffCV0]
  · rw [key a]
    rcases eq_or_ne a 0 with ha | ha
    · rw [if_pos ha]
      positivity
    · rw [if_neg ha]
      have h1 : 0 < 2 * θ * (1 + θ) := by nlinarith
      exact div_pos h1 hpos

/-- Witness for C3 at `theta = 1/2`: the first returned cell value is strictly
positive and the returned right face constraint is the updated value 1. -/
theorem c3_updated_boundary_conditions_witness :
    (0 : ℚ) ≤ 1 / 2 ∧
    ((implicit_solve_block diffState0 diffState1 diffCoeffs diffCoeffs 1
      (1 / 2)) 0).right_face_constraint = some 1 ∧
    0 < ((implicit_solve_block diffState0 diffState1 diffCoeffs diffCoeffs 1
      (1 / 2)) 0).value 0 :=
  ⟨by norm_num, (c3_updated_boundary_conditions (1 / 2) (by norm_num)).2.1,
    (c3_updated_boundary_conditions (1 / 2) (by norm_num)).2.2 (by norm_num) 0⟩

/-- Zero-valued boundary constraints contribute no constant flux. -/
theorem fluxConstTerm_zero (n : ℕ) (dr : ℚ) (d v : Fin (n + 2) → ℚ)
    (bcL bcR : FaceBC) (hL : ZeroBC bcL) (hR : ZeroBC bcR) (f : Fin (n + 2)) :
    fluxConstTerm n dr d v bcL bcR f = 0 := by
  rcases bcL with vL | gL <;> rcases bcR with vR | gR <;>
    simp only [ZeroBC] at hL hR <;> subst hL <;> subst hR <;>
      simp [fluxConstTerm]

/-- With zero sources and zero-valued boundary constraints the constant part
of the spatial operator vanishes identically. -/
theorem cVec_zero {c n : ℕ} (coeffs : Block1DCoeffs c n)
    (bc : Fin (c + 1) → FaceBC × FaceBC) (dr : Fin (c + 1) → ℚ)
    (hsrc : ∀ i a, coeffs.source_cell i a = 0)
    (hbc : ∀ i, ZeroBC (bc i).1 ∧ ZeroBC (bc i).2) :
    cVec coeffs bc dr = 0 := by
  funext p
  rw [cVec, chanVec, fluxConstTerm_zero _ _ _ _ _ _ (hbc p.1).1 (hbc p.1).2,
    fluxConstTerm_zero _ _ _ _ _ _ (hbc p.1).1 (hbc p.1).2, hsrc]
  norm_num

/-- C4 (amended): the flat-zero-residual statement requires the static
boundary constraints to be zero-valued.  When the boundary constraints of
`x_old` and of the `t + dt` boundary tuple are all zero-valued (face value `0`
or face gradient `0`), all source terms are zero and the old state is flat
zero, the residual of the flat zero candidate is exactly `0` for every
`theta`, every `dt` and every coefficient bundle pair; and in the diffusive
test system, when the right boundary constraint changes from `0` at `t` to `1`
at `t + dt`, the flat zero candidate's residual is exactly `0` at `theta = 0`
and nonzero for `theta > 0`. -/
theorem c4_residual_boundary_conditions {c n : ℕ}
    (coeffs_old coeffs_new : Block1DCoeffs c n)
    (x_old x_bc : Fin (c + 1) → CellVariable n) (dt θ : ℚ)
    (hsrcO : ∀ i a, coeffs_old.source_cell i a = 0)
    (hsrcN : ∀ i a, coeffs_new.source_cell i a = 0)
    (hvals : ∀ i a, (x_old i).value a = 0)
    (hbcO : ∀ i, ZeroBC ((x_old i).leftBC) ∧ ZeroBC ((x_old i).rightBC))
    (hbcN : ∀ i, ZeroBC ((x_bc i).leftBC) ∧ ZeroBC ((x_bc i).rightBC)) :
    theta_method_block_residual 0 x_old x_bc coeffs_old coeffs_new dt θ = 0 ∧
    (θ = 0 → theta_method_block_residual 0 diffState0 diffState1 diffCoeffs
      diffCoeffs 1 θ = 0) ∧
    (0 < θ → theta_method_block_residual 0 diffState0 diffState1 diffCoeffs
      diffCoeffs 1 θ ≠ 0) := by
  have hsv : stateVec x_old = 0 := funext fun p => hvals p.1 p.2
  have key2 : theta_method_block_residual 0 diffState0 diffState1 diffCoeffs
      diffCoeffs 1 θ = fun p => if p.2 = 0 then 0 else -(2 * θ) := by
    funext p
    rcases p with ⟨i, a⟩
    fin_cases i
    fin_cases a <;>
      (norm_num +decide [theta_method_block_residual, theta_method_matrix_equation,
        Matrix.mulVec, Matrix.dotProduct, Fintype.sum_prod_type, Fin.sum_univ_succ,
        cMat, cVec, chanMat, chanVec, fluxCellCoeff, fluxCoeffLeftCell,
        fluxCoeffRightCell, fluxConstTerm, upwindWeightL, upwindWeightR,
        stateBC, stateDr, stateVec, diffState0, diffState1, diffCV0, diffCV1,
        diffCoeffs, CellVariable.leftBC, CellVariable.rightBC, Matrix.of_apply,
        Pi.add_apply, Pi.sub_apply, Pi.zero_apply, Prod.mk.injEq]
       try ring)
  refine ⟨?_, fun h => ?_, fun h => ?_⟩
  · funext p
    simp [theta_method_block_residual, theta_method_matrix_equation, hsv,
      Matrix.mulVec_zero,
      cVec_zero coeffs_new (stateBC x_bc) (stateDr x_bc) hsrcN (fun i => hbcN i),
      cVec_zero coeffs_old (stateBC x_old) (stateDr x_old) hsrcO (fun i => hbcO i)]
  · rw [key2, h]
    funext p
    simp
  · rw [key2]
    intro hcontra
    have h2 := congrFun hcontra (0, 1)
    simp at h2
    exact absurd h2 (ne_of_gt h)

/-- Witness for C4 (amended) at the diffusive system with zero-valued static
boundaries and `theta = 1/2`: the flat zero candidate has exactly zero
residual, while the updated-boundary residual is nonzero. -/
theorem c4_residual_boundary_conditions_witness :
    theta_method_block_residual 0 diffState0 diffState0 diffCoeffs diffCoeffs
      1 (1 / 2) = 0 ∧
    theta_method_block_residual 0 diffState0 diffState1 diffCoeffs diffCoeffs
      1 (1 / 2) ≠ 0 :=
  ⟨(c4_residual_boundary_conditions diffCoeffs diffCoeffs diffState0 diffState0
      1 (1 / 2) (fun _ _ => rfl) (fun _ _ => rfl) (fun _ _ => rfl)
      (fun _ => ⟨rfl, rfl⟩) (fun _ => ⟨rfl, rfl⟩)).1,
    (c4_residual_boundary_conditions diffCoeffs diffCoeffs diffState0 diffState0
      1 (1 / 2) (fun _ _ => rfl) (fun _ _ => rfl) (fun _ _ => rfl)
      (fun _ => ⟨rfl, rfl⟩) (fun _ => ⟨rfl, rfl⟩)).2.2 (by norm_num)⟩

/-- C4 (counterexample to the claim as stated): with boundary constraints
identical at `t` and `t + dt` and all source terms zero — but the static right
boundary value constraint equal to `5` rather than `0` — the flat zero
candidate has a nonzero residual (already at `theta = 0`), contradicting the
claim that identical boundary constraints and zero sources alone force a zero
residual for a flat zero candidate. -/
theorem c4_residual_counterexample :
    theta_method_block_residual 0 diffState5 diffState5 diffCoeffs diffCoeffs
      1 0 ≠ 0 := by
  intro h
  have h2 := congrFun h (0, 1)
  norm_num +decide [theta_method_block_residual, theta_method_matrix_equation,
    Matrix.mulVec, Matrix.dotProduct, Fintype.sum_prod_type, Fin.sum_univ_succ,
    cMat, cVec, chanMat, chanVec, fluxCellCoeff, fluxCoeffLeftCell,
    fluxCoeffRightCell, fluxConstTerm, upwindWeightL, upwindWeightR,
    stateBC, stateDr, stateVec, diffState5, diffCV5, diffCV0, diffCoeffs,
    CellVariable.leftBC, CellVariable.rightBC, Matrix.of_apply,
    Pi.add_apply, Pi.sub_apply, Pi.zero_apply] at h2

/-- C6: for every `CellVariable`, a boundary face value constraint `v`
makes `face_grad()` at that boundary equal to the one-sided difference against
the nearest cell over the half cell width — `(v - nearest) / (1/2 * dr)` on the
right, `(nearest - v) / (1/2 * dr)` on the left (outward difference sign
convention) — a boundary face gradient constraint `g` makes `face_grad()` at
that boundary exactly `g`, and interior cell values other than the nearest
cell do not affect the boundary face gradient. -/
theorem c6_face_grad_boundary {n : ℕ} (cv cw : CellVariable n) (v g : ℚ) :
    (cv.right_face_constraint = some v →
      cv.face_grad (Fin.last (n + 1)) = (v - cv.value (Fin.last n)) / (1 / 2 * cv.dr)) ∧
    (cv.left_face_constraint = some v →
      cv.face_grad 0 = (cv.value 0 - v) / (1 / 2 * cv.dr)) ∧
    (cv.right_face_constraint = none → cv.right_face_grad_constraint = some g →
      cv.face_grad (Fin.last (n + 1)) = g) ∧
    (cv.left_face_constraint = none → cv.left_face_grad_constraint = some g →
      cv.face_grad 0 = g) ∧
    (cv.dr = cw.dr → cv.right_face_constraint = cw.right_face_constraint →
      cv.right_face_grad_constraint = cw.right_face_grad_constraint →
      cv.value (Fin.last n) = cw.value (Fin.last n) →
      cv.face_grad (Fin.last (n + 1)) = cw.face_grad (Fin.last (n + 1))) ∧
    (cv.dr = cw.dr → cv.left_face_constraint = cw.left_face_constraint →
      cv.left_face_grad_constraint = cw.left_face_grad_constraint →
      cv.value 0 = cw.value 0 →
      cv.face_grad 0 = cw.face_grad 0) := by
  have hhalf : cv.dr / 2 = 1 / 2 * cv.dr := by ring
  refine ⟨fun h => ?_, fun h => ?_, fun h h2 => ?_, fun h h2 => ?_,
    fun h1 h2 h3 h4 => ?_, fun h1 h2 h3 h4 => ?_⟩
  · simp [CellVariable.face_grad, CellVariable.rightBC, h, hhalf]
  · simp [CellVariable.face_grad, CellVariable.leftBC, h, hhalf]
  · simp [CellVariable.face_grad, CellVariable.rightBC, h, h2]
  · simp [CellVariable.face_grad, CellVariable.leftBC, h, h2]
  · simp [CellVariable.face_grad, CellVariable.rightBC, h1, h2, h3, h4]
  · simp [CellVariable.face_grad, CellVariable.leftBC, h1, h2, h3, h4]

/-- Witness for C6 on a concrete three-cell variable with a right face value
constraint `2`, nearest cell value `1` and `dr = 1/4`: the boundary face
gradient evaluates to `(2 - 1) / (1/2 * (1/4)) = 8`. -/
theorem c6_face_grad_boundary_witness :
    (cvRightValueW.right_face_constraint = some 2) ∧
    cvRightValueW.face_grad (Fin.last 3) = 8 := by
  refine ⟨rfl, ?_⟩
  have h := (c6_face_grad_boundary cvRightValueW cvRightValueW 2 0).1 rfl
  rw [h]
  norm_num +decide [cvRightValueW]

/-- C7: a `CellVariable` accepted by constraint replacement has exactly one
constraint kind set on each side and carries exactly the requested constraints
with unchanged cell values; requesting zero or two constraints on either side
yields `InvalidConstraintError`; and replacement is pure — re-validating a
valid instance returns it unchanged (the original is never mutated). -/
theorem c7_exactly_one_constraint_per_side {n : ℕ} (cv cv2 : CellVariable n)
    (lfc lfgc rfc rfgc : Option ℚ) :
    (replaceConstraints cv lfc lfgc rfc rfgc = .ok cv2 →
      ExactlyOne lfc lfgc ∧ ExactlyOne rfc rfgc ∧
      cv2.value = cv.value ∧ cv2.dr = cv.dr ∧
      cv2.left_face_constraint = lfc ∧ cv2.left_face_grad_constraint = lfgc ∧
      cv2.right_face_constraint = rfc ∧ cv2.right_face_grad_constraint = rfgc ∧
      cv2.constraintsValid = true) ∧
    (¬ ExactlyOne lfc lfgc ∨ ¬ ExactlyOne rfc rfgc →
      replaceConstraints cv lfc lfgc rfc rfgc = .error .invalidConstraint) ∧
    (cv.constraintsValid = true →
      replaceConstraints cv cv.left_face_constraint cv.left_face_grad_constraint
        cv.right_face_constraint cv.right_face_grad_constraint = .ok cv) := by
  refine ⟨fun h => ?_, fun h => ?_, fun h => ?_⟩
  · rw [replaceConstraints] at h
    split at h
    case isTrue hval =>
      rw [CellVariable.constraintsValid, Bool.and_eq_true, sideOk_iff, sideOk_iff] at hval
      cases h
      exact ⟨hval.1, hval.2, rfl, rfl, rfl, rfl, rfl, rfl, by
        rw [CellVariable.constraintsValid, Bool.and_eq_true, sideOk_iff, sideOk_iff]
        exact hval⟩
    case isFalse => exact absurd h (by simp)
  · rw [replaceConstraints]
    split
    case isTrue hval =>
      rw [CellVariable.constraintsValid, Bool.and_eq_true, sideOk_iff, sideOk_iff] at hval
      rcases h with h | h
      · exact absurd hval.1 h
      · exact absurd hval.2 h
    case isFalse => rfl
  · rw [replaceConstraints]
    split
    case isTrue => rfl
    case isFalse hval => exact absurd h hval

/-- Witness for C7: on a concrete valid two-cell variable, overconstraining the
left side (both a value and a gradient constraint) is rejected with
`InvalidConstraintError`, and re-validating the instance returns it unchanged. -/
theorem c7_exactly_one_constraint_per_side_witness :
    replaceConstraints diffCV0 (some 1) (some 2) none (some 0) =
      .error .invalidConstraint ∧
    replaceConstraints diffCV0 diffCV0.left_face_constraint
      diffCV0.left_face_grad_constraint diffCV0.right_face_constraint
      diffCV0.right_face_grad_constraint = .ok diffCV0 := by
  constructor
  · exact (c7_exactly_one_constraint_per_side diffCV0 diffCV0
      (some 1) (some 2) none (some 0)).2.1 (Or.inl (by simp [ExactlyOne]))
  · exact (c7_exactly_one_constraint_per_side diffCV0 diffCV0
      none none none none).2.2 (by rfl)

/-- C8: the flux/voltage conversions round-trip: with `dt = 1`,
`theta = 1`, `vloop(t) = 0.1`, target `vloop(t+dt) = 0.2` and
`psi_edge(t) = 0.5`, deriving `psi_edge(t+dt)` with
`calculate_psi_value_constraint_from_vloop` and applying
`update_vloop_lcfs_from_psi` to the flux fields at `t` and `t + dt`
recovers `vloop(t+dt) = 0.2` (exactly, hence within floating-point
tolerance). -/
theorem c8_vloop_round_trip : update_vloop_lcfs_from_psi psiT0 psiT1 1 = 0.2 := by
  norm_num +decide [psiT0, psiT1, update_vloop_lcfs_from_psi, CellVariable.face_value,
    CellVariable.rightBC, calculate_psi_value_constraint_from_vloop, Fin.last]

/-- C9: whenever an absolute edge density `ne_bound_right` is supplied
(with `ne_bound_right_is_fGW` unset), the returned right face constraint
equals that value exactly, for every setting of `normalize_to_nbar` and
`ne_is_fGW` (absolute edge density takes precedence); when no absolute edge
density is supplied, the constraint is derived from the edge of the `ne`
profile, with normalization to the line-averaged density target applied when
`normalize_to_nbar` is set — on the linear `1.5 → 1` test profile with
`nbar = 1` the normalized constraint is `128/159 ≈ 0.8050314`. -/
theorem c9_ne_boundary_precedence (m : ℕ) (neFace : Fin (m + 2) → ℝ)
    (nbar : ℝ) (normalize_to_nbar ne_is_fGW : Bool) (nbr : ℝ)
    (Ip_tot Rmin nref : ℝ) :
    (compute_ne_bound_right m neFace nbar normalize_to_nbar ne_is_fGW false
      (some nbr) Ip_tot Rmin nref = nbr) ∧
    (compute_ne_bound_right m neFace nbar false false false none
      Ip_tot Rmin nref = neFace (Fin.last (m + 1))) ∧
    (compute_ne_bound_right m neFace nbar true false false none
      Ip_tot Rmin nref =
      nbar / lineAvgFace m neFace * neFace (Fin.last (m + 1))) ∧
    (compute_ne_bound_right 3 neProfileW 1 true false false none
      Ip_tot Rmin nref = 128 / 159) := by
  refine ⟨by simp [compute_ne_bound_right], by simp [compute_ne_bound_right],
    by simp [compute_ne_bound_right], ?_⟩
  norm_num +decide [compute_ne_bound_right, lineAvgFace, neProfileW,
    Fin.sum_univ_succ, Fin.last]

/-- C10: the units of the returned density constraint follow the governing
Greenwald-fraction flag: a supplied absolute `ne_bound_right` with
`ne_bound_right_is_fGW` set, or a profile-derived boundary with `ne_is_fGW`
set (no normalization), is multiplied by the Greenwald density
`nGW = Ip_tot / (π · Rmin²) · 1e20 / nref`; the non-governing flag
(`ne_is_fGW` when `ne_bound_right` is supplied, `ne_bound_right_is_fGW` when
it is not) is ignored. -/
theorem c10_ne_boundary_fgw_units (m : ℕ) (neFace : Fin (m + 2) → ℝ)
    (nbar : ℝ) (normalize_to_nbar ne_is_fGW ne_bound_right_is_fGW : Bool)
    (nbr : ℝ) (Ip_tot Rmin nref : ℝ) :
    (compute_ne_bound_right m neFace nbar normalize_to_nbar ne_is_fGW true
      (some nbr) Ip_tot Rmin nref =
      nbr * (Ip_tot / (Real.pi * Rmin ^ 2) * 1e20 / nref)) ∧
    (compute_ne_bound_right m neFace nbar false true ne_bound_right_is_fGW
      none Ip_tot Rmin nref =
      neFace (Fin.last (m + 1)) * (Ip_tot / (Real.pi * Rmin ^ 2) * 1e20 / nref)) ∧
    (compute_ne_bound_right m neFace nbar normalize_to_nbar ne_is_fGW
      ne_bound_right_is_fGW (some nbr) Ip_tot Rmin nref =
      compute_ne_bound_right m neFace nbar normalize_to_nbar false
      ne_bound_right_is_fGW (some nbr) Ip_tot Rmin nref) ∧
    (compute_ne_bound_right m neFace nbar normalize_to_nbar ne_is_fGW
      ne_bound_right_is_fGW none Ip_tot Rmin nref =
      compute_ne_bound_right m neFace nbar normalize_to_nbar ne_is_fGW false
      none Ip_tot Rmin nref) := by
  refine ⟨by simp [compute_ne_bound_right, nGW], by simp [compute_ne_bound_right, nGW],
    by simp [compute_ne_bound_right], by simp [compute_ne_bound_right]⟩

set_option maxHeartbeats 2000000 in
theorem stepA_form (w : SysIdx 1 1 → ℚ) :
    stepConv 1 (1 / 2) 0 (convState 1 w) = convState 1 (gA w) := by
  have hL : (theta_method_matrix_equation (convState 1 w) (convState 1 w)
      (convCoeffs 1) (convCoeffs 1) (1 / 2) 0).lhs_mat =
      (2 : ℚ) • (1 : Matrix (SysIdx 1 1) (SysIdx 1 1) ℚ) := by
    ext ⟨i, a⟩ ⟨j, b⟩
    fin_cases i <;> fin_cases j <;> fin_cases a <;> fin_cases b <;>
      norm_num +decide [theta_method_matrix_equation, cMat, chanMat, fluxCellCoeff,
        fluxCoeffLeftCell, fluxCoeffRightCell, upwindWeightL, upwindWeightR,
        stateBC, stateDr, convState, convCoeffs, bval,
        CellVariable.leftBC, CellVariable.rightBC, Matrix.of_apply,
        Matrix.smul_apply, Matrix.one_apply, smul_eq_mul, Prod.mk.injEq]
  have hInv : matInv ((2 : ℚ) • (1 : Matrix (SysIdx 1 1) (SysIdx 1 1) ℚ)) =
      (1 / 2 : ℚ) • 1 := by
    rw [matInv_eq_inv]
    refine Matrix.inv_eq_right_inv ?_
    rw [Matrix.smul_mul, Matrix.mul_smul, smul_smul, one_mul]
    norm_num
  funext i
  simp only [stepConv, implicit_solve_block, implicit_solve_block_vec]
  rw [hL, hInv]
  simp only [convState]
  congr 1
  funext a
  fin_cases i <;> fin_cases a <;>
    (norm_num +decide [Matrix.mulVec, Matrix.dotProduct, Fintype.sum_prod_type,
      Fin.sum_univ_succ, theta_method_matrix_equation, cMat, cVec, chanMat, chanVec,
      fluxCellCoeff, fluxCoeffLeftCell, fluxCoeffRightCell, fluxConstTerm,
      upwindWeightL, upwindWeightR, stateBC, stateDr, stateVec, convState,
      convCoeffs, bval, gA, CellVariable.leftBC, CellVariable.rightBC,
      Matrix.of_apply, Matrix.smul_apply, Matrix.one_apply, smul_eq_mul,
      Pi.add_apply, Pi.sub_apply, Prod.mk.injEq]
     try ring)

theorem iterA (k : ℕ) :
    (stepConv 1 (1 / 2) 0)^[k] (convState 1 0) = convState 1 (gA^[k] 0) := by
  induction k with
  | zero => rfl
  | succ k ih =>
    rw [Function.iterate_succ_apply', Function.iterate_succ_apply', ih, stepA_form]

theorem gA_closed (k : ℕ) : gA^[k] 0 = phiA k := by
  induction k with
  | zero =>
    funext p
    rcases p with ⟨i, a⟩
    fin_cases a <;> simp [phiA]
  | succ k ih =>
    rw [Function.iterate_succ_apply', ih]
    funext p
    rcases p with ⟨i, a⟩
    have h2 : (2 : ℚ) ^ k ≠ 0 := pow_ne_zero _ (by norm_num)
    fin_cases a <;>
      (simp only [gA, phiA, Nat.cast_succ, pow_succ]
       push_cast
       field_simp
       ring)

theorem convA_bound :
    ∀ i a, |(((stepConv 1 (1 / 2) 0)^[29] (convState 1 0)) i).value a - bval i| ≤
      (1e-7 : ℚ) * |bval i| := by
  intro i a
  rw [iterA, gA_closed]
  fin_cases i <;> fin_cases a <;>
    norm_num +decide [convState, phiA, bval, abs_le]

set_option maxHeartbeats 4000000 in
theorem stepB_form (w : SysIdx 1 2 → ℚ) :
    stepConv 2 1 (1 / 2) (convState 2 w) = convState 2 (gB w) := by
  have hL : (theta_method_matrix_equation (convState 2 w) (convState 2 w)
      (convCoeffs 2) (convCoeffs 2) 1 (1 / 2)).lhs_mat = lhsB := by
    ext ⟨i, a⟩ ⟨j, b⟩
    fin_cases i <;> fin_cases j <;> fin_cases a <;> fin_cases b <;>
      norm_num +decide [theta_method_matrix_equation, cMat, chanMat, fluxCellCoeff,
        fluxCoeffLeftCell, fluxCoeffRightCell, upwindWeightL, upwindWeightR,
        stateBC, stateDr, convState, convCoeffs, bval, lhsB,
        CellVariable.leftBC, CellVariable.rightBC, Matrix.of_apply, Prod.mk.injEq]
  have hAB : lhsB * lhsInvB = 1 := by
    ext ⟨i, a⟩ ⟨j, b⟩
    fin_cases i <;> fin_cases j <;> fin_cases a <;> fin_cases b <;>
      norm_num +decide [Matrix.mul_apply, Fintype.sum_prod_type, Fin.sum_univ_succ,
        lhsB, lhsInvB, Matrix.of_apply, Matrix.one_apply, Prod.mk.injEq]
  have hInv : matInv (theta_method_matrix_equation (convState 2 w) (convState 2 w)
      (convCoeffs 2) (convCoeffs 2) 1 (1 / 2)).lhs_mat = lhsInvB := by
    rw [hL, matInv_eq_inv, Matrix.inv_eq_right_inv hAB]
  funext i
  simp only [stepConv, implicit_solve_block, implicit_solve_block_vec]
  rw [hInv]
  simp only [convState]
  congr 1
  funext a
  fin_cases i <;> fin_cases a <;>
    (norm_num +decide [Matrix.mulVec, Matrix.dotProduct, Fintype.sum_prod_type,
      Fin.sum_univ_succ, theta_method_matrix_equation, cMat, cVec, chanMat, chanVec,
      fluxCellCoeff, fluxCoeffLeftCell, fluxCoeffRightCell, fluxConstTerm,
      upwindWeightL, upwindWeightR, stateBC, stateDr, stateVec, convState,
      convCoeffs, bval, gB, lhsInvB, CellVariable.leftBC, CellVariable.rightBC,
      Matrix.of_apply, Pi.add_apply, Pi.sub_apply, Prod.mk.injEq]
     try ring)

theorem iterB (k : ℕ) :
    (stepConv 2 1 (1 / 2))^[k] (convState 2 0) = convState 2 (gB^[k] 0) := by
  induction k with
  | zero => rfl
  | succ k ih =>
    rw [Function.iterate_succ_apply', Function.iterate_succ_apply', ih, stepB_form]

theorem gB_closed (k : ℕ) : gB^[k] 0 = phiB k := by
  induction k with
  | zero =>
    funext p
    rcases p with ⟨i, a⟩
    fin_cases a <;> simp [phiB]
  | succ k ih =>
    rw [Function.iterate_succ_apply', ih]
    funext p
    rcases p with ⟨i, a⟩
    have h3 : (3 : ℚ) ^ k ≠ 0 := pow_ne_zero _ (by norm_num)
    fin_cases a <;>
      (simp only [gB, phiB, Nat.cast_succ, pow_succ]
       push_cast
       field_simp
       ring)

theorem convB_bound :
    ∀ i a, |(((stepConv 2 1 (1 / 2))^[21] (convState 2 0)) i).value a - bval i| ≤
      (1e-7 : ℚ) * |bval i| := by
  intro i a
  rw [iterB, gB_closed]
  fin_cases i <;> fin_cases a <;>
    norm_num +decide [convState, phiB, bval, abs_le]

set_option maxHeartbeats 8000000 in
theorem stepC_form (w : SysIdx 1 3 → ℚ) :
    stepConv 3 1 1 (convState 3 w) = convState 3 (gC w) := by
  have hL : (theta_method_matrix_equation (convState 3 w) (convState 3 w)
      (convCoeffs 3) (convCoeffs 3) 1 1).lhs_mat = lhsC := by
    ext ⟨i, a⟩ ⟨j, b⟩
    fin_cases i <;> fin_cases j <;> fin_cases a <;> fin_cases b <;>
      norm_num +decide [theta_method_matrix_equation, cMat, chanMat, fluxCellCoeff,
        fluxCoeffLeftCell, fluxCoeffRightCell, upwindWeightL, upwindWeightR,
        stateBC, stateDr, convState, convCoeffs, bval, lhsC,
        CellVariable.leftBC, CellVariable.rightBC, Matrix.of_apply, Prod.mk.injEq]
  have hAB : lhsC * lhsInvC = 1 := by
    ext ⟨i, a⟩ ⟨j, b⟩
    fin_cases i <;> fin_cases j <;> fin_cases a <;> fin_cases b <;>
      norm_num +decide [Matrix.mul_apply, Fintype.sum_prod_type, Fin.sum_univ_succ,
        lhsC, lhsInvC, Matrix.of_apply, Matrix.one_apply, Prod.mk.injEq]
  have hInv : matInv (theta_method_matrix_equation (convState 3 w) (convState 3 w)
      (convCoeffs 3) (convCoeffs 3) 1 1).lhs_mat = lhsInvC := by
    rw [hL, matInv_eq_inv, Matrix.inv_eq_right_inv hAB]
  funext i
  simp only [stepConv, implicit_solve_block, implicit_solve_block_vec]
  rw [hInv]
  simp only [convState]
  congr 1
  funext a
  fin_cases i <;> fin_cases a <;>
    (norm_num +decide [Matrix.mulVec, Matrix.dotProduct, Fintype.sum_prod_type,
      Fin.sum_univ_succ, theta_method_matrix_equation, cMat, cVec, chanMat, chanVec,
      fluxCellCoeff, fluxCoeffLeftCell, fluxCoeffRightCell, fluxConstTerm,
      upwindWeightL, upwindWeightR, stateBC, stateDr, stateVec, convState,
      convCoeffs, bval, gC, lhsInvC, CellVariable.leftBC, CellVariable.rightBC,
      Matrix.of_apply, Pi.add_apply, Pi.sub_apply, Prod.mk.injEq]
     try ring
     try rfl)

theorem iterC (k : ℕ) :
    (stepConv 3 1 1)^[k] (convState 3 0) = convState 3 (gC^[k] 0) := by
  induction k with
  | zero => rfl
  | succ k ih =>
    rw [Function.iterate_succ_apply', Function.iterate_succ_apply', ih, stepC_form]

theorem gC_closed (k : ℕ) : gC^[k] 0 = phiC k := by
  induction k with
  | zero =>
    funext p
    rcases p with ⟨i, a⟩
    fin_cases a <;> simp [phiC]
  | succ k ih =>
    rw [Function.iterate_succ_apply', ih]
    funext p
    rcases p with ⟨i, a⟩
    have h2 : (2 : ℚ) ^ k ≠ 0 := pow_ne_zero _ (by norm_num)
    fin_cases a <;>
      (simp only [gC, phiC, Nat.cast_succ, pow_succ]
       push_cast
       field_simp
       ring)

theorem convC_bound :
    ∀ i a, |(((stepConv 3 1 1)^[34] (convState 3 0)) i).value a - bval i| ≤
      (1e-7 : ℚ) * |bval i| := by
  intro i a
  rw [iterC, gC_closed]
  fin_cases i <;> fin_cases a <;>
    norm_num +decide [convState, phiC, bval, abs_le]

/-- C5: with uniform leftward convection velocity `-1` on every face,
zero diffusion, and per-channel right-boundary face value constraints
`(1, -2)`, repeated application of `implicit_solve_block` (via `stepConv`,
which re-invokes the solver with the current state as both old state and
guess) drives every channel's cell values to that channel's right-boundary
constraint value, uniformly over cells, within the `1e-7` relative tolerance
of the reference test, for the tested parameterizations
`(num_cells, theta, steps) = (2, 0, 29), (3, 1/2, 21), (4, 1, 34)`
(the explicit case steps with `dt = 1/2`, the implicit cases with `dt = 1`). -/
theorem c5_leftward_convection :
    (∀ i a, |(((stepConv 1 (1 / 2) 0)^[29] (convState 1 0)) i).value a - bval i| ≤
      (1e-7 : ℚ) * |bval i|) ∧
    (∀ i a, |(((stepConv 2 1 (1 / 2))^[21] (convState 2 0)) i).value a - bval i| ≤
      (1e-7 : ℚ) * |bval i|) ∧
    (∀ i a, |(((stepConv 3 1 1)^[34] (convState 3 0)) i).value a - bval i| ≤
      (1e-7 : ℚ) * |bval i|) :=
  ⟨convA_bound, convB_bound, convC_bound⟩

/-- C5 (counterexample to exact equality): after the 29 tested explicit steps
the boundary-adjacent cell of channel 0 equals `1 - 2⁻²⁹`, not the boundary
constraint value `1` — the constraint propagates only up to the reference
test's `1e-7` relative tolerance, not to exact equality. -/
theorem c5_leftward_convection_counterexample :
    (((stepConv 1 (1 / 2) 0)^[29] (convState 1 0)) 0).value 1 ≠ bval 0 := by
  rw [iterA, gA_closed]
  norm_num +decide [convState, phiA, bval]

end ToraxFvm
